import Mathlib

/-!
Shallow embedding of the Warp64 scrambler (src/warp64.c) and the trailer
inspection utility (src/warptrail3.c).

Byte strings are modelled as `List Nat` (each element a byte value < 256
where that matters), the 24-bit normalized key as a `Nat` holding the three
key octets in its 24 least significant bits, and the effectful orchestrator
`warp64` as a pure function from an environment oracle (recording whether
each fallible filesystem step succeeds) to the observable outcome: process
status, whether an output file was created and survives, its content, and
whether the input file survives.
-/

namespace Warp64

/-- `decode64` (warp64.c lines 155-178): decoded base-64 value of a
character code, `none` standing for the C return value -1. -/
def decode64 (c : Nat) : Option Nat :=
  if 65 ≤ c ∧ c ≤ 90 then some (c - 65)
  else if 97 ≤ c ∧ c ≤ 122 then some (c - 97 + 26)
  else if 48 ≤ c ∧ c ≤ 57 then some (c - 48 + 52)
  else if c = 43 then some 62
  else if c = 47 then some 63
  else none

/-- The three extension characters of `deriveKey` (warp64.c lines 387-406),
as a 3-element list. -/
def extChars : List Nat → List Nat
  | [] => [0, 0, 0]
  | [a] => [a, a, a]
  | [a, b] => [a, b, a]
  | a :: b :: c :: _ => [a, b, c]

/-- The successive 4-character groups consumed by the `while (slen > 0)`
loop of `deriveKey` (warp64.c lines 411-449): a final partial group of
1, 2 or 3 characters is padded with the leading extension characters. -/
def keyGroups (ext : List Nat) : List Nat → List (List Nat)
  | [] => []
  | [a] => [[a, ext.getD 0 0, ext.getD 1 0, ext.getD 2 0]]
  | [a, b] => [[a, b, ext.getD 0 0, ext.getD 1 0]]
  | [a, b, c] => [[a, b, c, ext.getD 0 0]]
  | a :: b :: c :: d :: rest => [a, b, c, d] :: keyGroups ext rest

/-- Decoding of one 4-character group into a packed integer
(warp64.c lines 452-465): `acc = (acc << 6) | decode64(b64[i])`,
failing on any non-alphabet character. -/
def decodeGroup (g : List Nat) : Option Nat :=
  g.foldl
    (fun acc c =>
      match acc, decode64 c with
      | some a, some d => some ((a <<< 6) ||| d)
      | _, _ => none)
    (some 0)

/-- The XOR mixing loop of `deriveKey` (warp64.c lines 409-469):
each decoded group is XORed into the running accumulator `mixed`. -/
def mixGroups : List (List Nat) → Nat → Option Nat
  | [], m => some m
  | g :: gs, m =>
    match decodeGroup g with
    | none => none
    | some a => mixGroups gs (m ^^^ a)

/-- The full mixing pass of `deriveKey` over a secret. -/
def mixSecret (s : List Nat) : Option Nat :=
  mixGroups (keyGroups (extChars s) s) 0

/-- Most significant key octet: `(key >> 16) & 0xff`. -/
def hiByte (x : Nat) : Nat := (x >>> 16) &&& 255

/-- Middle key octet: `(key >> 8) & 0xff`. -/
def midByte (x : Nat) : Nat := (x >>> 8) &&& 255

/-- Least significant key octet: `key & 0xff`. -/
def loByte (x : Nat) : Nat := x &&& 255

/-- Zero-byte replacement and repacking of `deriveKey`
(warp64.c lines 472-497): a zero octet is replaced by the sentinel
1 / 2 / 4 for octet 0 / 1 / 2 respectively. -/
def normalizeMixed (mixed : Nat) : Nat :=
  let c0 := hiByte mixed
  let c1 := midByte mixed
  let c2 := loByte mixed
  let c0 := if c0 = 0 then 1 else c0
  let c1 := if c1 = 0 then 2 else c1
  let c2 := if c2 = 0 then 4 else c2
  (c0 <<< 16) + (c1 <<< 8) + c2

/-- `deriveKey` (warp64.c lines 354-506): fails on the empty secret or on a
non-alphabet character, otherwise XOR-mixes the padded groups and
normalizes the result.  `none` stands for the C return value -1. -/
def deriveKey (s : List Nat) : Option Nat :=
  if s.length < 1 then none
  else
    match mixSecret s with
    | none => none
    | some m => some (normalizeMixed m)

/-- Key octet selected by dictionary index `k` (`kb[k]` of warp64.c
lines 586-588, with `k` always in 0..2). -/
def kbyte (key k : Nat) : Nat :=
  if k = 0 then hiByte key
  else if k = 1 then midByte key
  else loByte key

/-- Substitution dictionary entry `pd[k][j] = (j + kb[k]) % 256`
(warp64.c lines 599-601). -/
def dictVal (kb j : Nat) : Nat := (j + kb) % 256

/-- The per-window byte loop of `process64` (warp64.c lines 663-689):
`count` bytes are produced starting at window position `i`, with running
dictionary index `k`; a window position at or past the length of the
mapped input window reads an implicit zero byte. -/
def windowLoop (key : Nat) (inWin : List Nat) : Nat → Nat → Nat → List Nat
  | _, _, 0 => []
  | k, i, count + 1 =>
    dictVal (kbyte key k) (inWin.getD i 0)
      :: windowLoop key inWin ((k + 1) % 3) (i + 1) count

/-- The outer window loop of `process64` (warp64.c lines 617-721), with an
explicit fuel argument for structural recursion: each iteration processes
`ws = min winsize remc` output bytes at absolute offset `base`, mapping an
input window of `wsi = min ws remi` bytes, and the dictionary index of the
first window byte is `base % 3`.  Since every iteration with
`winsize ≥ 1` consumes at least one output byte, fuel equal to the
initial remaining count is always sufficient. -/
def processLoop (winsize key : Nat) (input : List Nat) :
    Nat → Nat → Nat → Nat → List Nat
  | 0, _, _, _ => []
  | fuel + 1, base, remc, remi =>
    if remc = 0 then []
    else
      let ws := min winsize remc
      let wsi := min ws remi
      let inWin := (input.drop base).take wsi
      windowLoop key inWin (base % 3) 0 ws
        ++ processLoop winsize key input fuel (base + ws) (remc - ws) (remi - ws)

/-- `process64` (warp64.c lines 545-755): produces the `olen` output bytes
from the input bytes; when `trailer` is set the remaining input count
starts three short of the output count, so the last three output positions
read implicit zero bytes. -/
def process64 (winsize key : Nat) (trailer : Bool) (olen : Nat)
    (input : List Nat) : List Nat :=
  processLoop winsize key input olen 0 olen (if trailer then olen - 3 else olen)

/-- The byte `process64` writes at absolute output offset `n`: the
dictionary index is `n % 3` and an offset at or past the remaining input
count `remi` reads an implicit zero byte.  This is the windowing-free
description of the transform proved equivalent to `process64` below. -/
def outByte (key : Nat) (input : List Nat) (remi n : Nat) : Nat :=
  dictVal (kbyte key (n % 3)) (if n < remi then input.getD n 0 else 0)

/-- Key inversion for descrambling (warp64.c lines 960-984): each octet
`b` of the normalized key is replaced by `256 - b` and the octets are
repacked.  The C code aborts on a zero octet, which `deriveKey` rules
out. -/
def invertKey (key : Nat) : Nat :=
  ((256 - hiByte key) <<< 16) ||| ((256 - midByte key) <<< 8) ||| (256 - loByte key)

/-- The trailer re-assembly of the descramble verification
(warp64.c lines 878-891): `z = 3 - ((ctlen - 3) % 3)` in C `int64_t`
arithmetic (truncated remainder, `ctlen` already reduced to the content
length), then `tk = (tk << 8) | trailer[(z + i) % 3]` for `i = 0, 1, 2`. -/
def trailerKey (ctlen : Nat) (trail : Nat → Nat) : Nat :=
  let z : Int := 3 - ((ctlen : Int) - 3).tmod 3
  (List.range 3).foldl
    (fun tk (i : Nat) => (tk <<< 8) ||| trail ((z + (i : Int)).tmod 3).toNat) 0

/-- Trailer packing as the specification words it: rotation index
`z = (3 - (L mod 3)) mod 3`, the trailer bytes taken in order
`trail[(z+i) mod 3]` for `i = 0, 1, 2` and packed big-endian.  Stated from
the spec, to be compared with `trailerKey` which is stated from the code. -/
def specTrailerPack (ctlen : Nat) (trail : Nat → Nat) : Nat :=
  let z := (3 - ctlen % 3) % 3
  trail ((z + 0) % 3) * 65536 + trail ((z + 1) % 3) * 256 + trail ((z + 2) % 3)

/-- Environment oracle for one `warp64` run: whether each fallible
filesystem step (exclusive creation of the output, pre-sizing it, the
mmap transform) succeeds.  Failures before the output file exists
(missing trailer, key mismatch) are decided by the data, not the oracle. -/
structure WEnv where
  createOk : Bool
  presizeOk : Bool
  procOk : Bool
deriving DecidableEq

/-- State of a `warp64` run just before the cleanup code
(warp64.c lines 1016-1029): overall status, whether a new output file was
created (`new_file`), the bytes written to it, and whether the failure was
the key-mismatch check of line 895. -/
structure WMid where
  status : Bool
  newFile : Bool
  outData : List Nat
  keyMismatch : Bool
deriving DecidableEq

/-- Observable outcome of a `warp64` run after cleanup: process status,
whether the output file exists afterwards and with which content, whether
the input file still exists, whether an output file was ever created, and
whether the run failed the key-mismatch check. -/
structure RunResult where
  ok : Bool
  outputExists : Bool
  outputContent : List Nat
  inputExists : Bool
  outputCreated : Bool
  keyMismatch : Bool
deriving DecidableEq

/-- The body of `warp64` (warp64.c lines 774-1000) up to but excluding the
final cleanup: key derivation, the descramble length check and trailer
verification (before the output file is opened), exclusive creation of
the output, output length computation, the zero-length shortcut, key
inversion for descrambling, and the `process64` call. -/
def warp64Mid (winsize : Nat) (env : WEnv) (secret : List Nat)
    (descr : Bool) (input : List Nat) : WMid :=
  match deriveKey secret with
  | none => ⟨false, false, [], false⟩
  | some key =>
    if descr = true ∧ input.length < 3 then ⟨false, false, [], false⟩
    else
      let ctlen := if descr then input.length - 3 else input.length
      if descr = true ∧
          trailerKey ctlen (fun j => input.getD (input.length - 3 + j) 0) ≠ key then
        ⟨false, false, [], true⟩
      else if env.createOk = false then ⟨false, false, [], false⟩
      else
        let olen := if descr then ctlen else ctlen + 3
        if olen = 0 then ⟨true, true, [], false⟩
        else if env.presizeOk = false then ⟨false, true, [], false⟩
        else
          let pkey := if descr then invertKey key else key
          if env.procOk = false then ⟨false, true, [], false⟩
          else ⟨true, true, process64 winsize pkey (!descr) olen input, false⟩

/-- `warp64` (warp64.c lines 774-1033): the run body followed by the
cleanup of lines 1016-1029 — on failure a created output file is
unlinked, on success the input file is unlinked. -/
def warp64 (winsize : Nat) (env : WEnv) (secret : List Nat)
    (descr : Bool) (input : List Nat) : RunResult :=
  let m := warp64Mid winsize env secret descr input
  { ok := m.status
    outputExists := m.newFile && m.status
    outputContent := m.outData
    inputExists := !m.status
    outputCreated := m.newFile
    keyMismatch := m.keyMismatch }

/-- All filesystem steps succeed. -/
def goodEnv : WEnv := ⟨true, true, true⟩

/-- Outcome of a `warptrail3` run: exit code and the report printed on
standard output (byte offset of the third-from-last byte, then the last
three bytes), `none` when nothing is reported. -/
structure TrailResult where
  exitCode : Nat
  report : Option (Nat × Nat × Nat × Nat)
deriving DecidableEq

/-- `warptrail3` (warptrail3.c lines 48-192) on a single path argument:
`none` models a path that fails `stat` or is not a regular file; a file
shorter than three bytes fails with exit code 1 and no report; otherwise
the reported offset is the file length minus three, followed by the last
three bytes. -/
def warptrail3 (file : Option (List Nat)) : TrailResult :=
  match file with
  | none => ⟨1, none⟩
  | some bytes =>
    if bytes.length < 3 then ⟨1, none⟩
    else
      ⟨0, some (bytes.length - 3,
        bytes.getD (bytes.length - 3) 0,
        bytes.getD (bytes.length - 2) 0,
        bytes.getD (bytes.length - 1) 0)⟩

/-! ### Arithmetic bridges between the bitwise C idioms and plain arithmetic -/

theorem and255_eq_mod (x : Nat) : x &&& 255 = x % 256 := by
  have h := Nat.and_pow_two_sub_one_eq_mod x 8
  norm_num at h
  exact h

theorem shiftLeft_or_eq (a b k : Nat) (hb : b < 2 ^ k) :
    (a <<< k) ||| b = a * 2 ^ k + b := by
  rw [Nat.shiftLeft_eq, Nat.mul_comm, ← Nat.mul_add_lt_is_or hb, Nat.mul_comm]

theorem hiByte_eq (x : Nat) : hiByte x = x / 65536 % 256 := by
  have h : x >>> 16 = x / 65536 := Nat.shiftRight_eq_div_pow x 16
  rw [hiByte, and255_eq_mod, h]

theorem midByte_eq (x : Nat) : midByte x = x / 256 % 256 := by
  have h : x >>> 8 = x / 256 := Nat.shiftRight_eq_div_pow x 8
  rw [midByte, and255_eq_mod, h]

theorem loByte_eq (x : Nat) : loByte x = x % 256 := by
  rw [loByte, and255_eq_mod]

theorem hiByte_lt (x : Nat) : hiByte x < 256 := by
  rw [hiByte_eq]; omega

theorem midByte_lt (x : Nat) : midByte x < 256 := by
  rw [midByte_eq]; omega

theorem loByte_lt (x : Nat) : loByte x < 256 := by
  rw [loByte_eq]; omega

theorem pack3_bytes {b0 b1 b2 : Nat} (h0 : b0 < 256) (h1 : b1 < 256)
    (h2 : b2 < 256) :
    hiByte (b0 * 65536 + b1 * 256 + b2) = b0 ∧
    midByte (b0 * 65536 + b1 * 256 + b2) = b1 ∧
    loByte (b0 * 65536 + b1 * 256 + b2) = b2 := by
  rw [hiByte_eq, midByte_eq, loByte_eq]
  omega

theorem byte_decomp {x : Nat} (h : x < 2 ^ 24) :
    x = hiByte x * 65536 + midByte x * 256 + loByte x := by
  rw [hiByte_eq, midByte_eq, loByte_eq]
  omega

/-! ### Key derivation: success, bounds, byte structure -/

theorem decode64_lt {c d : Nat} (h : decode64 c = some d) : d < 64 := by
  unfold decode64 at h
  repeat' split at h
  all_goals simp at h
  all_goals omega

theorem decodeGroup_foldl_none (g : List Nat) :
    g.foldl
      (fun acc c =>
        match acc, decode64 c with
        | some a, some d => some ((a <<< 6) ||| d)
        | _, _ => none)
      none = none := by
  induction g with
  | nil => rfl
  | cons c g ih => simpa using ih

theorem decodeGroup_foldl_lt (g : List Nat) :
    ∀ a k v,
      g.foldl
        (fun acc c =>
          match acc, decode64 c with
          | some a, some d => some ((a <<< 6) ||| d)
          | _, _ => none)
        (some a) = some v →
      a < 2 ^ k → v < 2 ^ (k + 6 * g.length) := by
  induction g with
  | nil =>
    intro a k v hv ha
    simp at hv
    simpa [← hv] using ha
  | cons c g ih =>
    intro a k v hv ha
    rcases hd : decode64 c with _ | d
    · simp only [List.foldl_cons, hd] at hv
      rw [decodeGroup_foldl_none] at hv
      exact absurd hv (by simp)
    · simp only [List.foldl_cons, hd] at hv
      have hsl : a <<< 6 = a * 64 := by rw [Nat.shiftLeft_eq]
      have hpow : (2 : Nat) ^ (k + 6) = 2 ^ k * 64 := by
        rw [Nat.pow_add]
      have hstep : (a <<< 6) ||| d < 2 ^ (k + 6) := by
        apply Nat.or_lt_two_pow
        · rw [hsl, hpow]; omega
        · have hone : 1 ≤ 2 ^ k := Nat.one_le_two_pow
          have hd64 := decode64_lt hd
          rw [hpow]; omega
      have := ih _ (k + 6) v hv hstep
      have harr : k + 6 + 6 * g.length = k + 6 * (g.length + 1) := by omega
      rw [harr] at this
      simpa using this

theorem decodeGroup_lt {g : List Nat} {v : Nat} (h : decodeGroup g = some v) :
    v < 2 ^ (6 * g.length) := by
  have := decodeGroup_foldl_lt g 0 0 v h (by norm_num)
  simpa using this

theorem decodeGroup_foldl_isSome (g : List Nat) :
    ∀ a, (∀ c ∈ g, (decode64 c).isSome) →
      ∃ v,
        g.foldl
          (fun acc c =>
            match acc, decode64 c with
            | some a, some d => some ((a <<< 6) ||| d)
            | _, _ => none)
          (some a) = some v := by
  induction g with
  | nil => intro a _; exact ⟨a, rfl⟩
  | cons c g ih =>
    intro a h
    obtain ⟨d, hd⟩ := Option.isSome_iff_exists.mp (h c (by simp))
    simp only [List.foldl_cons, hd]
    exact ih _ (fun c' hc' => h c' (by simp [hc']))

theorem decodeGroup_isSome {g : List Nat}
    (h : ∀ c ∈ g, (decode64 c).isSome) : ∃ v, decodeGroup g = some v :=
  decodeGroup_foldl_isSome g 0 h

theorem keyGroups_length (ext : List Nat) :
    ∀ s g, g ∈ keyGroups ext s → g.length = 4
  | [], g => by simp [keyGroups]
  | [a], g => by simp [keyGroups]; rintro rfl; rfl
  | [a, b], g => by simp [keyGroups]; rintro rfl; rfl
  | [a, b, c], g => by simp [keyGroups]; rintro rfl; rfl
  | a :: b :: c :: d :: rest, g => by
    simp only [keyGroups, List.mem_cons]
    rintro (rfl | hg)
    · rfl
    · exact keyGroups_length ext rest g hg

theorem getD_mem {l : List Nat} {n : Nat} (h : n < l.length) :
    l.getD n 0 ∈ l := by
  rw [List.getD_eq_getElem l 0 h]
  exact List.getElem_mem h

theorem keyGroups_mem (ext : List Nat) (hext : ext.length = 3) :
    ∀ s g, g ∈ keyGroups ext s → ∀ c ∈ g, c ∈ s ∨ c ∈ ext
  | [], g => by simp [keyGroups]
  | [a], g => by
    simp only [keyGroups, List.mem_singleton]
    rintro rfl c hc
    simp only [List.mem_cons, List.not_mem_nil, or_false] at hc
    rcases hc with rfl | rfl | rfl | rfl
    · exact Or.inl (by simp)
    all_goals exact Or.inr (getD_mem (by omega))
  | [a, b], g => by
    simp only [keyGroups, List.mem_singleton]
    rintro rfl c hc
    simp only [List.mem_cons, List.not_mem_nil, or_false] at hc
    rcases hc with rfl | rfl | rfl | rfl
    · exact Or.inl (by simp)
    · exact Or.inl (by simp)
    all_goals exact Or.inr (getD_mem (by omega))
  | [a, b, c0], g => by
    simp only [keyGroups, List.mem_singleton]
    rintro rfl c hc
    simp only [List.mem_cons, List.not_mem_nil, or_false] at hc
    rcases hc with rfl | rfl | rfl | rfl
    · exact Or.inl (by simp)
    · exact Or.inl (by simp)
    · exact Or.inl (by simp)
    · exact Or.inr (getD_mem (by omega))
  | a :: b :: c0 :: d :: rest, g => by
    simp only [keyGroups, List.mem_cons]
    rintro (rfl | hg) c hc
    · simp only [List.mem_cons, List.not_mem_nil, or_false] at hc
      rcases hc with rfl | rfl | rfl | rfl <;> exact Or.inl (by simp)
    · rcases keyGroups_mem ext hext rest g hg c hc with h | h
      · exact Or.inl (by simp [h])
      · exact Or.inr h

theorem extChars_length (s : List Nat) : (extChars s).length = 3 := by
  match s with
  | [] => rfl
  | [a] => rfl
  | [a, b] => rfl
  | a :: b :: c :: rest => rfl

theorem extChars_mem {s : List Nat} (hs : s ≠ []) :
    ∀ c ∈ extChars s, c ∈ s := by
  match s with
  | [] => exact absurd rfl hs
  | [a] =>
    intro c hc
    simp [extChars] at hc
    simp [hc]
  | [a, b] =>
    intro c hc
    simp [extChars] at hc
    rcases hc with rfl | rfl | rfl <;> simp
  | a :: b :: c0 :: rest =>
    intro c hc
    simp [extChars] at hc
    rcases hc with rfl | rfl | rfl <;> simp

theorem mixGroups_lt {gs : List (List Nat)} :
    ∀ m v, (∀ g ∈ gs, g.length = 4) → mixGroups gs m = some v →
      m < 2 ^ 24 → v < 2 ^ 24 := by
  induction gs with
  | nil =>
    intro m v _ hv hm
    simp [mixGroups] at hv
    omega
  | cons g gs ih =>
    intro m v hlen hv hm
    rw [mixGroups] at hv
    rcases hd : decodeGroup g with _ | a
    · rw [hd] at hv
      exact absurd hv (by simp)
    · rw [hd] at hv
      have ha : a < 2 ^ 24 := by
        have h4 := decodeGroup_lt hd
        rwa [hlen g (by simp)] at h4
      exact ih _ v (fun g' hg' => hlen g' (by simp [hg'])) hv
        (Nat.xor_lt_two_pow hm ha)

theorem mixGroups_isSome {gs : List (List Nat)} :
    ∀ m, (∀ g ∈ gs, ∃ v, decodeGroup g = some v) →
      ∃ v, mixGroups gs m = some v := by
  induction gs with
  | nil => intro m _; exact ⟨m, rfl⟩
  | cons g gs ih =>
    intro m h
    obtain ⟨a, ha⟩ := h g (by simp)
    rw [mixGroups, ha]
    exact ih _ (fun g' hg' => h g' (by simp [hg']))

theorem mixSecret_lt {s : List Nat} {m : Nat} (h : mixSecret s = some m) :
    m < 2 ^ 24 :=
  mixGroups_lt 0 m (fun g hg => keyGroups_length _ s g hg) h (by norm_num)

theorem mixSecret_isSome {s : List Nat}
    (hv : ∀ c ∈ s, (decode64 c).isSome) (hs : s ≠ []) :
    ∃ m, mixSecret s = some m := by
  apply mixGroups_isSome
  intro g hg
  apply decodeGroup_isSome
  intro c hc
  rcases keyGroups_mem (extChars s) (extChars_length s) s g hg c hc with h | h
  · exact hv c h
  · exact hv c (extChars_mem hs c h)

theorem deriveKey_of_mix {s : List Nat} {m : Nat} (hs : s ≠ [])
    (hm : mixSecret s = some m) : deriveKey s = some (normalizeMixed m) := by
  have hlen : ¬ s.length < 1 := by
    cases s
    · exact absurd rfl hs
    · simp
  rw [deriveKey, if_neg hlen, hm]

theorem deriveKey_some {s : List Nat} (hs : s ≠ [])
    (hv : ∀ c ∈ s, (decode64 c).isSome) :
    ∃ m, mixSecret s = some m ∧ deriveKey s = some (normalizeMixed m) := by
  obtain ⟨m, hm⟩ := mixSecret_isSome hv hs
  exact ⟨m, hm, deriveKey_of_mix hs hm⟩

theorem normalizeMixed_eq (m : Nat) :
    normalizeMixed m =
      (if hiByte m = 0 then 1 else hiByte m) * 65536 +
      (if midByte m = 0 then 2 else midByte m) * 256 +
      (if loByte m = 0 then 4 else loByte m) := by
  simp only [normalizeMixed, Nat.shiftLeft_eq]

theorem normalizeMixed_bytes (m : Nat) :
    hiByte (normalizeMixed m) = (if hiByte m = 0 then 1 else hiByte m) ∧
    midByte (normalizeMixed m) = (if midByte m = 0 then 2 else midByte m) ∧
    loByte (normalizeMixed m) = (if loByte m = 0 then 4 else loByte m) := by
  rw [normalizeMixed_eq]
  have h0 : (if hiByte m = 0 then 1 else hiByte m) < 256 := by
    have := hiByte_lt m; split <;> omega
  have h1 : (if midByte m = 0 then 2 else midByte m) < 256 := by
    have := midByte_lt m; split <;> omega
  have h2 : (if loByte m = 0 then 4 else loByte m) < 256 := by
    have := loByte_lt m; split <;> omega
  exact pack3_bytes h0 h1 h2

theorem deriveKey_bytes {s : List Nat} {key : Nat}
    (h : deriveKey s = some key) :
    (1 ≤ hiByte key ∧ hiByte key ≤ 255) ∧
    (1 ≤ midByte key ∧ midByte key ≤ 255) ∧
    (1 ≤ loByte key ∧ loByte key ≤ 255) ∧
    key = hiByte key * 65536 + midByte key * 256 + loByte key := by
  rw [deriveKey] at h
  split at h
  · exact absurd h (by simp)
  · rcases hm : mixSecret s with _ | m
    · rw [hm] at h
      exact absurd h (by simp)
    · rw [hm] at h
      have hkey : key = normalizeMixed m := by simpa using h.symm
      subst hkey
      obtain ⟨e0, e1, e2⟩ := normalizeMixed_bytes m
      have b0 := hiByte_lt m
      have b1 := midByte_lt m
      have b2 := loByte_lt m
      refine ⟨?_, ?_, ?_, ?_⟩
      · rw [e0]; split <;> omega
      · rw [e1]; split <;> omega
      · rw [e2]; split <;> omega
      · apply byte_decomp
        rw [normalizeMixed_eq]
        split <;> split <;> split <;> omega

theorem kbyte_lt (key k : Nat) : kbyte key k < 256 := by
  unfold kbyte
  split
  · exact hiByte_lt key
  · split
    · exact midByte_lt key
    · exact loByte_lt key

theorem kbyte_of_deriveKey {s : List Nat} {key : Nat}
    (h : deriveKey s = some key) (k : Nat) :
    1 ≤ kbyte key k ∧ kbyte key k ≤ 255 := by
  obtain ⟨h0, h1, h2, _⟩ := deriveKey_bytes h
  unfold kbyte
  split
  · exact h0
  · split
    · exact h1
    · exact h2

/-! ### Window-free characterization of the transform -/

theorem map_range_getD (f : Nat → Nat) (m n : Nat) (h : n < m) :
    ((List.range m).map f).getD n 0 = f n := by
  rw [List.getD_eq_getElem?_getD]
  simp [List.getElem?_map, List.getElem?_range h]

theorem windowLoop_eq (key : Nat) (inWin : List Nat) :
    ∀ count k i, k < 3 → windowLoop key inWin k i count =
      (List.range count).map
        (fun t => dictVal (kbyte key ((k + t) % 3)) (inWin.getD (i + t) 0)) := by
  intro count
  induction count with
  | zero => intro k i _; rfl
  | succ c ih =>
    intro k i hk
    simp only [windowLoop]
    rw [ih ((k + 1) % 3) (i + 1) (by omega),
        List.range_succ_eq_map, List.map_cons, List.map_map]
    congr 1
    · have h0 : (k + 0) % 3 = k := by omega
      rw [h0]
      rfl
    · apply List.map_congr_left
      intro t ht
      simp only [Function.comp_apply]
      have h1 : ((k + 1) % 3 + t) % 3 = (k + Nat.succ t) % 3 := by omega
      have h2 : i + 1 + t = i + Nat.succ t := by omega
      rw [h1, h2]

theorem getD_take_drop (input : List Nat) (base wsi t : Nat) :
    ((input.drop base).take wsi).getD t 0 =
      if t < wsi then input.getD (base + t) 0 else 0 := by
  rw [List.getD_eq_getElem?_getD, List.getElem?_take, List.getElem?_drop]
  split
  · rw [List.getD_eq_getElem?_getD]
  · rfl

theorem processLoop_eq (winsize key : Nat) (input : List Nat) (rtot : Nat)
    (hw : 1 ≤ winsize) :
    ∀ fuel base remc, remc ≤ fuel →
      processLoop winsize key input fuel base remc (rtot - base) =
        (List.range remc).map (fun t => outByte key input rtot (base + t)) := by
  intro fuel
  induction fuel with
  | zero =>
    intro base remc h
    have h0 : remc = 0 := by omega
    subst h0
    rfl
  | succ fuel ih =>
    intro base remc h
    by_cases h0 : remc = 0
    · subst h0; simp [processLoop]
    · simp only [processLoop, if_neg h0]
      rw [windowLoop_eq key _ (min winsize remc) (base % 3) 0 (by omega)]
      rw [Nat.sub_sub]
      rw [ih (base + min winsize remc) (remc - min winsize remc) (by omega)]
      have hsplit : List.range remc =
          List.range (min winsize remc) ++
            (List.range (remc - min winsize remc)).map (min winsize remc + ·) := by
        rw [← List.range_add]
        congr 1
        omega
      rw [hsplit, List.map_append, List.map_map]
      congr 1
      · apply List.map_congr_left
        intro t ht
        rw [List.mem_range] at ht
        simp only [Nat.zero_add, outByte]
        rw [getD_take_drop]
        have hidx : (base % 3 + t) % 3 = (base + t) % 3 := by omega
        rw [hidx]
        congr 1
        split_ifs <;> first | rfl | omega
      · apply List.map_congr_left
        intro t ht
        simp only [Function.comp_apply]
        congr 1
        omega

theorem process64_eq_flat (winsize key : Nat) (trailer : Bool) (olen : Nat)
    (input : List Nat) (hw : 1 ≤ winsize) :
    process64 winsize key trailer olen input =
      (List.range olen).map
        (outByte key input (if trailer then olen - 3 else olen)) := by
  have h := processLoop_eq winsize key input
    (if trailer then olen - 3 else olen) hw olen 0 olen (Nat.le_refl _)
  simpa [process64] using h

theorem process64_length (winsize key : Nat) (trailer : Bool) (olen : Nat)
    (input : List Nat) (hw : 1 ≤ winsize) :
    (process64 winsize key trailer olen input).length = olen := by
  rw [process64_eq_flat winsize key trailer olen input hw]
  simp

theorem process64_getD (winsize key : Nat) (trailer : Bool) (olen : Nat)
    (input : List Nat) (hw : 1 ≤ winsize) {n : Nat} (hn : n < olen) :
    (process64 winsize key trailer olen input).getD n 0 =
      outByte key input (if trailer then olen - 3 else olen) n := by
  rw [process64_eq_flat winsize key trailer olen input hw]
  exact map_range_getD _ olen n hn

/-! ### Trailer rotation: the C index arithmetic versus the spec formula -/

theorem trailerIdx_eq (ctlen i : Nat) (hi : i < 3) :
    (((3 - ((ctlen : Int) - 3).tmod 3) + i).tmod 3).toNat
      = ((3 - ctlen % 3) % 3 + i) % 3 := by
  rcases Nat.lt_or_ge ctlen 3 with h | h
  · interval_cases ctlen <;> interval_cases i <;> decide
  · obtain ⟨k, rfl⟩ : ∃ k, ctlen = k + 3 := ⟨ctlen - 3, by omega⟩
    have h1 : ((k + 3 : Nat) : Int) - 3 = (k : Int) := by push_cast; ring
    rw [h1]
    have h2 : (k : Int).tmod 3 = (k : Int) % 3 :=
      Int.tmod_eq_emod (by positivity) (by norm_num)
    rw [h2]
    have h3 : (0 : Int) ≤ 3 - (k : Int) % 3 + i := by omega
    rw [Int.tmod_eq_emod h3 (by norm_num)]
    omega

theorem trailerKey_eq_spec (ctlen : Nat) (trail : Nat → Nat)
    (hb : ∀ j, j < 3 → trail j < 256) :
    trailerKey ctlen trail = specTrailerPack ctlen trail := by
  have h0 := trailerIdx_eq ctlen 0 (by omega)
  have h1 := trailerIdx_eq ctlen 1 (by omega)
  have h2 := trailerIdx_eq ctlen 2 (by omega)
  simp only [trailerKey, specTrailerPack]
  have hr : List.range 3 = [0, 1, 2] := rfl
  rw [hr]
  simp only [List.foldl_cons, List.foldl_nil]
  rw [h0, h1, h2]
  rw [Nat.zero_shiftLeft, Nat.zero_or]
  rw [shiftLeft_or_eq _ _ 8
    (lt_of_lt_of_le (hb (((3 - ctlen % 3) % 3 + 1) % 3) (by omega)) (by norm_num))]
  rw [shiftLeft_or_eq _ _ 8
    (lt_of_lt_of_le (hb (((3 - ctlen % 3) % 3 + 2) % 3) (by omega)) (by norm_num))]
  ring


theorem scrambled_getD (winsize key : Nat) (content : List Nat)
    (hw : 1 ≤ winsize) {n : Nat} (hn : n < content.length + 3) :
    (process64 winsize key true (content.length + 3) content).getD n 0 =
      dictVal (kbyte key (n % 3))
        (if n < content.length then content.getD n 0 else 0) := by
  rw [process64_getD winsize key true _ content hw hn]
  have h3 : (if (true : Bool) then content.length + 3 - 3 else content.length + 3)
      = content.length := by simp
  rw [outByte, h3]

theorem scrambled_trailer_byte (winsize key : Nat) (content : List Nat)
    (hw : 1 ≤ winsize) {j : Nat} (hj : j < 3) :
    (process64 winsize key true (content.length + 3) content).getD
        (content.length + j) 0 =
      kbyte key ((content.length + j) % 3) := by
  rw [scrambled_getD winsize key content hw (by omega)]
  rw [if_neg (by omega)]
  rw [dictVal, Nat.zero_add, Nat.mod_eq_of_lt (kbyte_lt key _)]

theorem kbyte_zero (key : Nat) : kbyte key 0 = hiByte key := rfl

theorem kbyte_one (key : Nat) : kbyte key 1 = midByte key := rfl

theorem kbyte_two (key : Nat) : kbyte key 2 = loByte key := rfl

theorem trailerKey_scrambled (winsize : Nat) (secret content : List Nat)
    {key : Nat} (hk : deriveKey secret = some key) (hw : 1 ≤ winsize) :
    trailerKey content.length
      (fun j =>
        (process64 winsize key true (content.length + 3) content).getD
          (content.length + j) 0) = key := by
  have hb : ∀ j, j < 3 →
      (process64 winsize key true (content.length + 3) content).getD
        (content.length + j) 0 < 256 := by
    intro j hj
    rw [scrambled_trailer_byte winsize key content hw hj]
    exact kbyte_lt key _
  rw [trailerKey_eq_spec _ _ hb]
  simp only [specTrailerPack]
  rw [scrambled_trailer_byte winsize key content hw (by omega),
      scrambled_trailer_byte winsize key content hw (by omega),
      scrambled_trailer_byte winsize key content hw (by omega)]
  have e0 : (content.length + ((3 - content.length % 3) % 3 + 0) % 3) % 3 = 0 := by omega
  have e1 : (content.length + ((3 - content.length % 3) % 3 + 1) % 3) % 3 = 1 := by omega
  have e2 : (content.length + ((3 - content.length % 3) % 3 + 2) % 3) % 3 = 2 := by omega
  rw [e0, e1, e2, kbyte_zero, kbyte_one, kbyte_two]
  exact ((deriveKey_bytes hk).2.2.2).symm

theorem invertKey_bytes {s : List Nat} {key : Nat} (h : deriveKey s = some key) :
    hiByte (invertKey key) = 256 - hiByte key ∧
    midByte (invertKey key) = 256 - midByte key ∧
    loByte (invertKey key) = 256 - loByte key := by
  obtain ⟨⟨h0a, h0b⟩, ⟨h1a, h1b⟩, ⟨h2a, h2b⟩, hpack⟩ := deriveKey_bytes h
  rw [invertKey, Nat.or_assoc]
  rw [shiftLeft_or_eq _ _ 8 (by norm_num; omega)]
  rw [shiftLeft_or_eq _ _ 16 (by norm_num; omega)]
  have e : (256 - hiByte key) * 2 ^ 16 +
      ((256 - midByte key) * 2 ^ 8 + (256 - loByte key)) =
      (256 - hiByte key) * 65536 + (256 - midByte key) * 256 +
        (256 - loByte key) := by ring
  rw [e]
  exact pack3_bytes (by omega) (by omega) (by omega)

theorem kbyte_invertKey {s : List Nat} {key : Nat} (h : deriveKey s = some key)
    (k : Nat) : kbyte (invertKey key) k = 256 - kbyte key k := by
  obtain ⟨e0, e1, e2⟩ := invertKey_bytes h
  unfold kbyte
  split
  · exact e0
  · split
    · exact e1
    · exact e2

theorem warp64Mid_scramble (winsize : Nat) (secret content : List Nat)
    {key : Nat} (hk : deriveKey secret = some key) :
    warp64Mid winsize goodEnv secret false content =
      ⟨true, true, process64 winsize key true (content.length + 3) content,
        false⟩ := by
  simp [warp64Mid, hk, goodEnv]

theorem warp64Mid_descramble (winsize : Nat) (secret input : List Nat)
    {key : Nat} (hk : deriveKey secret = some key) (hlen : 3 ≤ input.length)
    (hver : trailerKey (input.length - 3)
        (fun j => input.getD (input.length - 3 + j) 0) = key) :
    warp64Mid winsize goodEnv secret true input =
      if input.length - 3 = 0 then ⟨true, true, [], false⟩
      else
        ⟨true, true,
          process64 winsize (invertKey key) false (input.length - 3) input,
          false⟩ := by
  have hver' := hver
  simp only [List.getD_eq_getElem?_getD] at hver'
  simp [warp64Mid, hk, goodEnv, Nat.not_lt.mpr hlen, hver']

theorem warp64Mid_mismatch (winsize : Nat) (env : WEnv) (secret input : List Nat)
    {key : Nat} (hk : deriveKey secret = some key) (hlen : 3 ≤ input.length)
    (hver : trailerKey (input.length - 3)
        (fun j => input.getD (input.length - 3 + j) 0) ≠ key) :
    warp64Mid winsize env secret true input = ⟨false, false, [], true⟩ := by
  have hver' := hver
  simp only [List.getD_eq_getElem?_getD] at hver'
  simp [warp64Mid, hk, Nat.not_lt.mpr hlen, hver']


theorem warp64Mid_newFile_of_status (winsize : Nat) (env : WEnv)
    (secret : List Nat) (descr : Bool) (input : List Nat)
    (h : (warp64Mid winsize env secret descr input).status = true) :
    (warp64Mid winsize env secret descr input).newFile = true := by
  revert h
  unfold warp64Mid
  cases hd : deriveKey secret
  · simp
  · repeat' split
    all_goals simp [apply_ite WMid.status, apply_ite WMid.newFile]
    all_goals tauto

theorem warp64Mid_keyMismatch_iff (winsize : Nat) (env : WEnv)
    (secret input : List Nat) {key : Nat}
    (hk : deriveKey secret = some key) (hlen : 3 ≤ input.length) :
    ((warp64Mid winsize env secret true input).keyMismatch = true ↔
      trailerKey (input.length - 3)
        (fun j => input.getD (input.length - 3 + j) 0) ≠ key) := by
  simp only [warp64Mid, hk, List.getD_eq_getElem?_getD]
  have hnl : ¬ (True ∧ input.length < 3) := by
    simp
    omega
  rw [if_neg hnl]
  split_ifs with hcond <;> simp_all

theorem scramble_run (winsize : Nat) (secret content : List Nat) {key : Nat}
    (hk : deriveKey secret = some key) :
    (warp64 winsize goodEnv secret false content).ok = true ∧
    (warp64 winsize goodEnv secret false content).outputContent
      = process64 winsize key true (content.length + 3) content := by
  have h := warp64Mid_scramble winsize secret content hk
  constructor <;> simp [warp64, h]

theorem scrambled_verify (winsize : Nat) (secret content : List Nat)
    {key : Nat} (hk : deriveKey secret = some key) (hw : 1 ≤ winsize) :
    trailerKey
      ((process64 winsize key true (content.length + 3) content).length - 3)
      (fun j =>
        (process64 winsize key true (content.length + 3) content).getD
          ((process64 winsize key true (content.length + 3) content).length
            - 3 + j) 0) = key := by
  have hlen := process64_length winsize key true (content.length + 3) content hw
  simp only [hlen, Nat.add_sub_cancel]
  exact trailerKey_scrambled winsize secret content hk hw

theorem descramble_scrambled_eq (winsize : Nat) (secret content : List Nat)
    {key : Nat} (hk : deriveKey secret = some key) (hw : 1 ≤ winsize)
    (hc : ∀ b ∈ content, b < 256) :
    process64 winsize (invertKey key) false content.length
      (process64 winsize key true (content.length + 3) content) = content := by
  have hDlen := process64_length winsize (invertKey key) false content.length
    (process64 winsize key true (content.length + 3) content) hw
  apply List.ext_getElem (by rw [hDlen])
  intro n h1 h2
  rw [← List.getD_eq_getElem _ 0 h1, ← List.getD_eq_getElem _ 0 h2]
  have hn : n < content.length := by omega
  rw [process64_getD winsize (invertKey key) false content.length _ hw hn]
  rw [outByte, if_pos (by simpa using hn)]
  rw [scrambled_getD winsize key content hw (by omega), if_pos hn]
  rw [kbyte_invertKey hk]
  have hb := kbyte_of_deriveKey hk (n % 3)
  have hcb : content.getD n 0 < 256 := hc _ (getD_mem hn)
  rw [dictVal, dictVal]
  omega


/-- C4: every run is all-or-nothing with respect to the output artifact:
on failure no output file survives and the input file is untouched; on
success the (created) output file survives and the input file is deleted. -/
theorem C4_all_or_nothing (winsize : Nat) (env : WEnv) (secret : List Nat)
    (descr : Bool) (input : List Nat) :
    ((warp64 winsize env secret descr input).ok = false →
      (warp64 winsize env secret descr input).outputExists = false ∧
      (warp64 winsize env secret descr input).inputExists = true) ∧
    ((warp64 winsize env secret descr input).ok = true →
      (warp64 winsize env secret descr input).outputExists = true ∧
      (warp64 winsize env secret descr input).inputExists = false) := by
  have hnew := warp64Mid_newFile_of_status winsize env secret descr input
  constructor
  · intro hok
    simp only [warp64] at hok ⊢
    simp [hok]
  · intro hok
    simp only [warp64] at hok ⊢
    simp [hok, hnew hok]

/-- C4 witness: a run whose output creation fails reports failure, leaves
no output and keeps the input; a successful run deletes the input. -/
theorem C4_all_or_nothing_witness :
    ((warp64 4 ⟨false, true, true⟩ [65] false [7]).outputExists = false ∧
      (warp64 4 ⟨false, true, true⟩ [65] false [7]).inputExists = true) ∧
    ((warp64 4 goodEnv [65] false [7]).outputExists = true ∧
      (warp64 4 goodEnv [65] false [7]).inputExists = false) :=
  ⟨(C4_all_or_nothing 4 ⟨false, true, true⟩ [65] false [7]).1 (by decide),
   (C4_all_or_nothing 4 goodEnv [65] false [7]).2 (by decide)⟩

/-- C5: for a descramble run on an input of length at least 3 with content
length L = length - 3, the key verification accepts (no key-mismatch
failure) exactly when the three trailer bytes, taken in order
trailer[(z+i) mod 3] for i = 0,1,2 with z = (3 - (L mod 3)) mod 3 and
packed big-endian, equal the derived NormalizedKey. -/
theorem C5_verification_iff (winsize : Nat) (env : WEnv)
    (secret input : List Nat) (key : Nat)
    (hk : deriveKey secret = some key) (hlen : 3 ≤ input.length)
    (hbytes : ∀ b ∈ input, b < 256) :
    ((warp64 winsize env secret true input).keyMismatch = false ↔
      specTrailerPack (input.length - 3)
        (fun j => input.getD (input.length - 3 + j) 0) = key) := by
  have hb : ∀ j, j < 3 → input.getD (input.length - 3 + j) 0 < 256 := by
    intro j hj
    exact hbytes _ (getD_mem (by omega))
  have heq := trailerKey_eq_spec (input.length - 3)
    (fun j => input.getD (input.length - 3 + j) 0) hb
  have hiff := warp64Mid_keyMismatch_iff winsize env secret input hk hlen
  have hproj : (warp64 winsize env secret true input).keyMismatch
      = (warp64Mid winsize env secret true input).keyMismatch := by
    simp [warp64]
  rw [hproj, ← heq]
  constructor
  · intro h
    by_contra hne
    have := hiff.mpr hne
    rw [this] at h
    exact absurd h (by simp)
  · intro h
    by_contra hne
    have : (warp64Mid winsize env secret true input).keyMismatch = true := by
      cases hm : (warp64Mid winsize env secret true input).keyMismatch
      · exact absurd hm hne
      · rfl
    exact absurd h (hiff.mp this)

/-- C5 witness: a 5-byte scrambled file of the 2-byte content [1, 2] under
the secret "AB" verifies against the derived key. -/
theorem C5_verification_iff_witness :
    (warp64 4 goodEnv [65, 66] true
        (warp64 4 goodEnv [65, 66] false [1, 2]).outputContent).keyMismatch
        = false ↔
      specTrailerPack
        ((warp64 4 goodEnv [65, 66] false [1, 2]).outputContent.length - 3)
        (fun j => (warp64 4 goodEnv [65, 66] false [1, 2]).outputContent.getD
          ((warp64 4 goodEnv [65, 66] false [1, 2]).outputContent.length - 3
            + j) 0) = 69633 :=
  C5_verification_iff 4 goodEnv [65, 66]
    (warp64 4 goodEnv [65, 66] false [1, 2]).outputContent 69633
    (by decide) (by decide) (by decide)

/-- C6: key derivation succeeds on every nonempty base64 secret; each
octet of the NormalizedKey is non-zero, a zero octet of the mixed 24-bit
accumulator being replaced by the sentinel 1, 2 or 4 for octets 0, 1, 2. -/
theorem C6_nonzero_key (s : List Nat) (hs : s ≠ [])
    (hv : ∀ c ∈ s, (decode64 c).isSome) :
    ∃ m key, mixSecret s = some m ∧ deriveKey s = some key ∧
      hiByte key = (if hiByte m = 0 then 1 else hiByte m) ∧
      midByte key = (if midByte m = 0 then 2 else midByte m) ∧
      loByte key = (if loByte m = 0 then 4 else loByte m) ∧
      hiByte key ≠ 0 ∧ midByte key ≠ 0 ∧ loByte key ≠ 0 := by
  obtain ⟨m, hm, hd⟩ := deriveKey_some hs hv
  obtain ⟨e0, e1, e2⟩ := normalizeMixed_bytes m
  refine ⟨m, normalizeMixed m, hm, hd, e0, e1, e2, ?_, ?_, ?_⟩
  · rw [e0]; split <;> omega
  · rw [e1]; split <;> omega
  · rw [e2]; split <;> omega

/-- C6 witness: the 1-character secret "A". -/
theorem C6_nonzero_key_witness :
    ∃ m key, mixSecret [65] = some m ∧ deriveKey [65] = some key ∧
      hiByte key = (if hiByte m = 0 then 1 else hiByte m) ∧
      midByte key = (if midByte m = 0 then 2 else midByte m) ∧
      loByte key = (if loByte m = 0 then 4 else loByte m) ∧
      hiByte key ≠ 0 ∧ midByte key ≠ 0 ∧ loByte key ≠ 0 :=
  C6_nonzero_key [65] (by decide) (by decide)

/-- C7: the transform output does not depend on the window size: any two
positive window sizes give identical bytes, both equal to the window-free
map in which the dictionary index at absolute output offset n is n mod 3
(see outByte), carried continuously across window boundaries. -/
theorem C7_window_independence (w1 w2 key : Nat) (trailer : Bool)
    (olen : Nat) (input : List Nat) (h1 : 1 ≤ w1) (h2 : 1 ≤ w2) :
    process64 w1 key trailer olen input
        = process64 w2 key trailer olen input ∧
    process64 w1 key trailer olen input =
      (List.range olen).map
        (outByte key input (if trailer then olen - 3 else olen)) := by
  have e1 := process64_eq_flat w1 key trailer olen input h1
  have e2 := process64_eq_flat w2 key trailer olen input h2
  exact ⟨by rw [e1, e2], e1⟩

/-- C7 witness: window sizes 1 and 3 on a 5-byte scramble agree. -/
theorem C7_window_independence_witness :
    process64 1 69633 true 5 [10, 20] = process64 3 69633 true 5 [10, 20] ∧
    process64 1 69633 true 5 [10, 20] =
      (List.range 5).map
        (outByte 69633 [10, 20] (if true then 5 - 3 else 5)) :=
  C7_window_independence 1 3 69633 true 5 [10, 20] (by decide) (by decide)

/-- C8: deriveKey is a pure, deterministic function of the secret, and a
1-character secret derives the same key as its 3-fold repetition, both
padding to the same single 4-character group. -/
theorem C8_deriveKey_pure :
    (∀ s t : List Nat, s = t → deriveKey s = deriveKey t) ∧
    (∀ c : Nat, deriveKey [c] = deriveKey [c, c, c]) := by
  constructor
  · intro s t h
    rw [h]
  · intro c
    rfl

/-- C8 witness: the secrets "A" and "AAA". -/
theorem C8_deriveKey_pure_witness :
    deriveKey [65] = deriveKey [65] ∧
    deriveKey [65] = deriveKey [65, 65, 65] :=
  ⟨C8_deriveKey_pure.1 [65] [65] rfl, C8_deriveKey_pure.2 65⟩

/-- C10: warptrail3 reports the decimal offset of the third-from-last byte
and the last three bytes only for existing regular files of length at
least 3; shorter files, or paths that are missing or not regular files,
exit with code 1 and produce no report. -/
theorem C10_warptrail3_report (bytes : List Nat) :
    (bytes.length < 3 → warptrail3 (some bytes) = ⟨1, none⟩) ∧
    (3 ≤ bytes.length → warptrail3 (some bytes) =
      ⟨0, some (bytes.length - 3, bytes.getD (bytes.length - 3) 0,
        bytes.getD (bytes.length - 2) 0, bytes.getD (bytes.length - 1) 0)⟩) ∧
    warptrail3 none = ⟨1, none⟩ := by
  refine ⟨?_, ?_, rfl⟩
  · intro h
    simp only [warptrail3]
    rw [if_pos h]
  · intro h
    simp only [warptrail3]
    rw [if_neg (Nat.not_lt.mpr h)]

/-- C10 witness: a 2-byte file fails, a 4-byte file is reported. -/
theorem C10_warptrail3_report_witness :
    warptrail3 (some [1, 2]) = ⟨1, none⟩ ∧
    warptrail3 (some [9, 8, 7, 6]) = ⟨0, some (1, 8, 7, 6)⟩ :=
  ⟨(C10_warptrail3_report [1, 2]).1 (by decide),
   (C10_warptrail3_report [9, 8, 7, 6]).2.1 (by decide)⟩


/-- C2: the last three bytes of a freshly scrambled file, re-ordered by
taking trailer[(z+i) mod 3] for i = 0,1,2 with z = (3 - (len(C) mod 3))
mod 3, equal the NormalizedKey byte for byte; each trailer byte is the
dictionary image of the implicit zero byte, table[k][0], for the k
determined by its absolute output offset. -/
theorem C2_trailer_transparency (winsize : Nat) (secret content : List Nat)
    (key : Nat) (hk : deriveKey secret = some key) (hw : 1 ≤ winsize) :
    (warp64 winsize goodEnv secret false content).outputContent.length
        = content.length + 3 ∧
    (∀ i, i < 3 →
      (warp64 winsize goodEnv secret false content).outputContent.getD
        (content.length + ((3 - content.length % 3) % 3 + i) % 3) 0
        = kbyte key i) ∧
    (∀ j, j < 3 →
      (warp64 winsize goodEnv secret false content).outputContent.getD
        (content.length + j) 0
        = dictVal (kbyte key ((content.length + j) % 3)) 0) := by
  have hout := (scramble_run winsize secret content hk).2
  rw [hout]
  refine ⟨process64_length winsize key true (content.length + 3) content hw,
    ?_, ?_⟩
  · intro i hi
    rw [scrambled_trailer_byte winsize key content hw (by omega)]
    have e : (content.length + ((3 - content.length % 3) % 3 + i) % 3) % 3
        = i := by omega
    rw [e]
  · intro j hj
    rw [scrambled_trailer_byte winsize key content hw hj]
    rw [dictVal, Nat.zero_add, Nat.mod_eq_of_lt (kbyte_lt key _)]

/-- C2 witness: secret "AB" on the 5-byte content of the spec scenario. -/
theorem C2_trailer_transparency_witness :
    (warp64 4 goodEnv [65, 66] false [0, 17, 34, 51, 68]).outputContent.length
        = 8 ∧
    (∀ i, i < 3 →
      (warp64 4 goodEnv [65, 66] false [0, 17, 34, 51, 68]).outputContent.getD
        (5 + ((3 - 5 % 3) % 3 + i) % 3) 0 = kbyte 69633 i) := by
  have h := C2_trailer_transparency 4 [65, 66] [0, 17, 34, 51, 68] 69633
    (by decide) (by decide)
  exact ⟨h.1, h.2.1⟩

/-- C1: round trip — descrambling the scrambled file with the same secret
succeeds and restores the content exactly, for any content bytes and any
valid secret (1-255 base64-alphabet characters). -/
theorem C1_roundtrip (winsize : Nat) (secret content : List Nat)
    (hw : 1 ≤ winsize) (hs : secret ≠ []) (hs255 : secret.length ≤ 255)
    (hv : ∀ c ∈ secret, (decode64 c).isSome)
    (hc : ∀ b ∈ content, b < 256) :
    (warp64 winsize goodEnv secret false content).ok = true ∧
    (warp64 winsize goodEnv secret true
        (warp64 winsize goodEnv secret false content).outputContent).ok
      = true ∧
    (warp64 winsize goodEnv secret true
        (warp64 winsize goodEnv secret false content).outputContent).outputContent
      = content := by
  obtain ⟨m, hm, hk⟩ := deriveKey_some hs hv
  obtain ⟨hok1, hout1⟩ := scramble_run winsize secret content hk
  refine ⟨hok1, ?_⟩
  rw [hout1]
  have hSlen := process64_length winsize (normalizeMixed m) true
    (content.length + 3) content hw
  have hver := scrambled_verify winsize secret content hk hw
  have hmid2 := warp64Mid_descramble winsize secret
    (process64 winsize (normalizeMixed m) true (content.length + 3) content)
    hk (by omega) hver
  rw [hSlen, Nat.add_sub_cancel] at hmid2
  by_cases h0 : content.length = 0
  · rw [if_pos h0] at hmid2
    have hnil : content = [] := List.length_eq_zero.mp h0
    constructor
    · simp [warp64, hmid2]
    · have hout2 : (warp64 winsize goodEnv secret true
          (process64 winsize (normalizeMixed m) true (content.length + 3)
            content)).outputContent = [] := by
        simp [warp64, hmid2]
      rw [hout2, hnil]
  · rw [if_neg h0] at hmid2
    constructor
    · simp [warp64, hmid2]
    · have : (warp64 winsize goodEnv secret true
          (process64 winsize (normalizeMixed m) true (content.length + 3)
            content)).outputContent
          = process64 winsize (invertKey (normalizeMixed m)) false
            content.length
            (process64 winsize (normalizeMixed m) true (content.length + 3)
              content) := by
        simp [warp64, hmid2]
      rw [this]
      exact descramble_scrambled_eq winsize secret content hk hw hc

/-- C1 witness: secret "AB" and a 3-byte content. -/
theorem C1_roundtrip_witness :
    (warp64 4 goodEnv [65, 66] false [0, 255, 7]).ok = true ∧
    (warp64 4 goodEnv [65, 66] true
        (warp64 4 goodEnv [65, 66] false [0, 255, 7]).outputContent).ok
      = true ∧
    (warp64 4 goodEnv [65, 66] true
        (warp64 4 goodEnv [65, 66] false [0, 255, 7]).outputContent).outputContent
      = [0, 255, 7] :=
  C1_roundtrip 4 [65, 66] [0, 255, 7] (by decide) (by decide) (by decide)
    (by decide) (by decide)

/-- C9: a 0-byte content scrambles to exactly a 3-byte file (the trailer
alone); descrambling it with the same secret passes key verification and
yields a 0-byte output, the run counting as a success. -/
theorem C9_empty_content (winsize : Nat) (secret : List Nat) (key : Nat)
    (hk : deriveKey secret = some key) (hw : 1 ≤ winsize) :
    (warp64 winsize goodEnv secret false []).ok = true ∧
    (warp64 winsize goodEnv secret false []).outputContent.length = 3 ∧
    (warp64 winsize goodEnv secret true
        (warp64 winsize goodEnv secret false []).outputContent).ok = true ∧
    (warp64 winsize goodEnv secret true
        (warp64 winsize goodEnv secret false []).outputContent).keyMismatch
      = false ∧
    (warp64 winsize goodEnv secret true
        (warp64 winsize goodEnv secret false []).outputContent).outputContent
      = [] := by
  obtain ⟨hok1, hout1⟩ := scramble_run winsize secret ([] : List Nat) hk
  refine ⟨hok1, ?_, ?_, ?_, ?_⟩ <;> rw [hout1]
  · exact process64_length winsize key true 3 [] hw
  all_goals {
    have hSlen := process64_length winsize key true 3 ([] : List Nat) hw
    have hver := scrambled_verify winsize secret ([] : List Nat) hk hw
    have hmid2 := warp64Mid_descramble winsize secret
      (process64 winsize key true 3 []) hk (by omega) hver
    rw [hSlen] at hmid2
    rw [if_pos rfl] at hmid2
    simp [warp64, hmid2]
  }

/-- C9 witness: secret "A". -/
theorem C9_empty_content_witness :
    (warp64 4 goodEnv [65] false []).ok = true ∧
    (warp64 4 goodEnv [65] false []).outputContent.length = 3 ∧
    (warp64 4 goodEnv [65] true
        (warp64 4 goodEnv [65] false []).outputContent).ok = true ∧
    (warp64 4 goodEnv [65] true
        (warp64 4 goodEnv [65] false []).outputContent).keyMismatch = false ∧
    (warp64 4 goodEnv [65] true
        (warp64 4 goodEnv [65] false []).outputContent).outputContent = [] :=
  C9_empty_content 4 [65] 66052 (by decide) (by decide)

/-- C3: descrambling a scrambled file while supplying a secret whose
derived NormalizedKey differs fails with the key-mismatch error, creates
no output file (verification precedes output creation), and leaves the
scrambled input file in place, whatever the environment. -/
theorem C3_key_mismatch (winsize : Nat) (env : WEnv)
    (secret1 secret2 content : List Nat) (key1 key2 : Nat)
    (h1 : deriveKey secret1 = some key1) (h2 : deriveKey secret2 = some key2)
    (hne : key1 ≠ key2) (hw : 1 ≤ winsize) :
    (warp64 winsize env secret2 true
        (warp64 winsize goodEnv secret1 false content).outputContent).ok
      = false ∧
    (warp64 winsize env secret2 true
        (warp64 winsize goodEnv secret1 false content).outputContent).keyMismatch
      = true ∧
    (warp64 winsize env secret2 true
        (warp64 winsize goodEnv secret1 false content).outputContent).outputCreated
      = false ∧
    (warp64 winsize env secret2 true
        (warp64 winsize goodEnv secret1 false content).outputContent).outputExists
      = false ∧
    (warp64 winsize env secret2 true
        (warp64 winsize goodEnv secret1 false content).outputContent).inputExists
      = true := by
  obtain ⟨hok1, hout1⟩ := scramble_run winsize secret1 content h1
  rw [hout1]
  have hSlen := process64_length winsize key1 true (content.length + 3)
    content hw
  have hver := scrambled_verify winsize secret1 content h1 hw
  have hmid2 := warp64Mid_mismatch winsize env secret2
    (process64 winsize key1 true (content.length + 3) content) h2
    (by omega) (by rw [hver]; exact hne)
  refine ⟨?_, ?_, ?_, ?_, ?_⟩ <;> simp [warp64, hmid2]

/-- C3 witness: secrets "AB" and "CD" on a 2-byte content. -/
theorem C3_key_mismatch_witness :
    (warp64 4 goodEnv [67, 68] true
        (warp64 4 goodEnv [65, 66] false [5, 6]).outputContent).ok = false ∧
    (warp64 4 goodEnv [67, 68] true
        (warp64 4 goodEnv [65, 66] false [5, 6]).outputContent).keyMismatch
      = true ∧
    (warp64 4 goodEnv [67, 68] true
        (warp64 4 goodEnv [65, 66] false [5, 6]).outputContent).outputCreated
      = false ∧
    (warp64 4 goodEnv [67, 68] true
        (warp64 4 goodEnv [65, 66] false [5, 6]).outputContent).outputExists
      = false ∧
    (warp64 4 goodEnv [67, 68] true
        (warp64 4 goodEnv [65, 66] false [5, 6]).outputContent).inputExists
      = true :=
  C3_key_mismatch 4 goodEnv [65, 66] [67, 68] [5, 6] 69633 536707
    (by decide) (by decide) (by decide) (by decide)


end Warp64
